import Mathlib

/-!
Shallow embedding of `uncoverml/patch.py` (image patch extraction and
windowing utilities) and verification of its specification.

The Python module works on numpy arrays.  We model an ndarray as a shape
(list of dimension lengths) together with a total data function from
multi-indices to integer pixel values; `ndim` is the length of the shape.
Python's `range` and `%` / floor division on ints are modelled exactly
(Lean's `Int` `%` is `Int.emod` and `/` is `Int.ediv`, which agree with
Python's `%` and `//` for positive divisors).  Numpy basic slicing
`a[start:stop]` with `0 <= start` clips `stop` to the dimension length;
`sliceClip` reproduces that.  `np.reshape(..., n)` / `.flatten()` flatten
in C (row-major) order, which for our slices means row, then column, then
channel; `subFlat` reproduces that.
-/

namespace PatchPy

/-- model of a numpy ndarray: a shape plus a total function giving the value
at each multi-index.  Only indices below the shape are meaningful. -/
structure NDArray where
  shape : List Nat
  data : List Nat → Int

/-- model of Python `range(start, stop, step)` for a positive `step`:
the elements `start, start+step, ...` strictly below `stop`.  The length
formula `max 0 (ceil((stop-start)/step))` is written with floor division,
as CPython computes it. -/
def pyrange (start stop step : Int) : List Int :=
  (List.range ((stop - start + step - 1) / step).toNat).map fun i => start + step * (i : Nat)

/-- translation of `_spacing(dimension, psize, pstride)` over `Int`:
`offset = int(np.floor(float((dimension - psize) % pstride) / 2))`
followed by `range(offset, dimension - psize + 1, pstride)`.  The float
detour is exact here: the operand of `np.floor` is a nonnegative integer
divided by 2, far below 2^53. -/
def spacingZ (dimension psize pstride : Int) : List Int :=
  pyrange (((dimension - psize) % pstride) / 2) (dimension - psize + 1) pstride

/-- the `_spacing` sequence as natural numbers (all its elements are
nonnegative: the first is a nonnegative remainder halved and the step is
positive in every call site, which clamps `pstride` to at least 1). -/
def _spacing (dimension psize pstride : Nat) : List Nat :=
  (spacingZ dimension psize pstride).map Int.toNat

/-- indices selected by the numpy slice `start:stop` along an axis of
length `bound`, for a nonnegative start: `stop` is clipped to `bound`. -/
def sliceClip (start stop bound : Nat) : List Nat :=
  (List.range (min stop bound - start)).map (· + start)

/-- value of pixel `(i, j)` in channel `c`: a rank-3 array is indexed by
all three coordinates, a rank-2 array by row and column only. -/
def pixel (im : NDArray) (i j c : Nat) : Int :=
  match im.shape with
  | [_, _, _] => im.data [i, j, c]
  | _ => im.data [i, j]

/-- flattening (C order) of the sub-array `im[ys:ye, xs:xe]` of an image
with dimensions `Ih × Iw × Ic`: rows, then columns, then channels. -/
def subFlat (im : NDArray) (Ih Iw Ic ys ye xs xe : Nat) : List Int :=
  (sliceClip ys ye Ih).flatMap fun i =>
    (sliceClip xs xe Iw).flatMap fun j =>
      (List.range Ic).map fun c => pixel im i j c

/-- translation of `_checkim(image)`: a rank-3 shape yields
`(Ih, Iw, Ic)`, a rank-2 shape yields `(Ih, Iw, 1)`, anything else raises
`ValueError('image must be a 2D or 3D array')`. -/
def _checkim (im : NDArray) : Except String (Nat × Nat × Nat) :=
  match im.shape with
  | [Ih, Iw, Ic] => .ok (Ih, Iw, Ic)
  | [Ih, Iw] => .ok (Ih, Iw, 1)
  | _ => .error "image must be a 2D or 3D array"

/-- centre coordinates yielded by `grid_patches` for the patch at offsets
`(y, x)`: `(y + pwidth, x + pwidth)`, shifted by `centreoffset` when one
is given. -/
def gridCentre (y x pwidth : Nat) (centreoffset : Option (Int × Int)) : Int × Int :=
  match centreoffset with
  | none => ((y + pwidth : Nat), (x + pwidth : Nat))
  | some o => (((y + pwidth : Nat) : Int) + o.1, ((x + pwidth : Nat) : Int) + o.2)

/-- body of the `grid_patches` double loop, once the image has passed
`_checkim` with dimensions `(Ih, Iw, Ic)` and `pstride` has been clamped:
for `y` in `_spacing(Ih, psize, pstride)` and then `x` in
`_spacing(Iw, psize, pstride)`, yield the patch
`np.reshape(image[y:y+psize, x:x+psize], psize^2 * Ic)` and its centre. -/
def gridList (im : NDArray) (Ih Iw Ic pwidth pstride : Nat)
    (centreoffset : Option (Int × Int)) : List (List Int × Int × Int) :=
  let psize := 2 * pwidth + 1
  (_spacing Ih psize pstride).flatMap fun y =>
    (_spacing Iw psize pstride).map fun x =>
      (subFlat im Ih Iw Ic y (y + psize) x (x + psize), gridCentre y x pwidth centreoffset)

/-- translation of `grid_patches(image, pwidth, pstride, centreoffset)`:
check the image, set `psize = 2*pwidth + 1`, clamp `pstride` to at least
1, and yield the grid of flattened patches with centres in row-major
order.  The lazily yielded sequence is modelled as the list of all yields;
a raised exception is modelled as `Except.error`. -/
def grid_patches (im : NDArray) (pwidth pstride : Nat)
    (centreoffset : Option (Int × Int) := none) :
    Except String (List (List Int × Int × Int)) :=
  match _checkim im with
  | .ok (Ih, Iw, Ic) => .ok (gridList im Ih Iw Ic pwidth (max 1 pstride) centreoffset)
  | .error e => .error e

/-- flattened patch extracted by `point_patches` for a point `(r, c)`:
`image[r - pwidth : r + pwidth + 1, c - pwidth : c + pwidth + 1].flatten()`.
(The generator only runs after the bounds check has passed, so
`r ≥ pwidth` and `c ≥ pwidth` and the natural subtraction is exact.) -/
def pointPatch (im : NDArray) (Ih Iw Ic pwidth : Nat) (p : Nat × Nat) : List Int :=
  subFlat im Ih Iw Ic (p.1 - pwidth) (p.1 + pwidth + 1) (p.2 - pwidth) (p.2 + pwidth + 1)

/-- translation of `point_patches(image, points, pwidth)`: check the
image; with `left = top = pwidth`, `bottom = Ih - pwidth`,
`right = Iw - pwidth`, raise `ValueError` when any point has
`top > row`, `bottom < row`, `left > col` or `right < col` (the
comparisons are on Python ints, written here in subtraction-free form);
otherwise return the generator of flattened patches in input order. -/
def point_patches (im : NDArray) (points : List (Nat × Nat)) (pwidth : Nat) :
    Except String (List (List Int)) :=
  match _checkim im with
  | .ok (Ih, Iw, Ic) =>
    if (points.any fun p => pwidth > p.1) || (points.any fun p => Ih < p.1 + pwidth)
        || (points.any fun p => pwidth > p.2) || (points.any fun p => Iw < p.2 + pwidth) then
      .error "Points are outside of image bounds"
    else
      .ok (points.map (pointPatch im Ih Iw Ic pwidth))
  | .error e => .error e

/-- model of `int(round(np.sqrt(n)))` for a natural `n`: the integer
nearest to `√n`.  Ties cannot occur (`(s + 1/2)^2` is never an integer),
and the double-precision error of `np.sqrt` is far too small to move an
integer square root across the half-way point, so nearest rounding is
exact: with `s = ⌊√n⌋`, round down iff `n ≤ s^2 + s`. -/
def intRoundSqrt (n : Nat) : Nat :=
  let s := Nat.sqrt n
  if n ≤ s * s + s then s else s + 1

/-- translation of `np.array_split(l, n)`: split `l` into `n` contiguous
parts whose sizes differ by at most one, the `l.length % n` longer parts
(of size `l.length / n + 1`) coming first.  The head part has size
`l.length / n + 1` exactly when `n` does not divide `l.length`, and the
remaining parts follow the same rule on what is left, which reproduces
numpy's size sequence. -/
def arraySplit {α : Type} (l : List α) : Nat → List (List α)
  | 0 => []
  | n + 1 =>
    let s := l.length / (n + 1) + if l.length % (n + 1) = 0 then 0 else 1
    l.take s :: arraySplit (l.drop s) n

/-- translation of `image_windows(imshape, nwindows, pwidth, pstride)`:
`npside = int(round(np.sqrt(nwindows)))`; split the full-image column and
row spacings into `npside` parts; for every nonempty pair of parts emit
the slice pair `(slice(sy[0], sy[-1] + psize), slice(sx[0], sx[-1] + psize))`,
rows outer, columns inner.  A slice is modelled as a `(start, stop)`
pair. -/
def image_windows (imshape : Nat × Nat) (nwindows pwidth pstride : Nat) :
    List ((Nat × Nat) × (Nat × Nat)) :=
  let npside := intRoundSqrt nwindows
  let psize := 2 * pwidth + 1
  let ps := max 1 pstride
  let spacex := arraySplit (_spacing imshape.2 psize ps) npside
  let spacey := arraySplit (_spacing imshape.1 psize ps) npside
  (spacey.filter fun sy => !sy.isEmpty).flatMap fun sy =>
    (spacex.filter fun sx => !sx.isEmpty).map fun sx =>
      ((sy.headI, sy.getLastD 0 + psize), (sx.headI, sx.getLastD 0 + psize))

/-- model of the numpy view `image[rs.1:rs.2, cs.1:cs.2]` for in-bounds
slices: the shape shrinks to the slice lengths (with the numpy clip on the
stop index) and indexing shifts by the slice starts; the channel axis, when
present, is untouched. -/
def subimage (im : NDArray) (rs cs : Nat × Nat) : NDArray :=
  match im.shape with
  | [r, c] =>
    ⟨[min rs.2 r - rs.1, min cs.2 c - cs.1], fun idx =>
      match idx with
      | [i, j] => im.data [i + rs.1, j + cs.1]
      | _ => im.data idx⟩
  | [r, c, ch] =>
    ⟨[min rs.2 r - rs.1, min cs.2 c - cs.1, ch], fun idx =>
      match idx with
      | [i, j, k] => im.data [i + rs.1, j + cs.1, k]
      | _ => im.data idx⟩
  | _ => im

end PatchPy

namespace PatchPy

/-! Closed form of the spacing sequence. -/

/-- closed form of `_spacing` when `psize ≤ dimension` and the stride is
positive: with `D = dimension - psize`, `off = (D % s) / 2`, the sequence
is `off, off + s, …` with `(D - off) / s + 1` terms. -/
theorem spacing_eq_map_range (d p s : Nat) (hp : p ≤ d) (hs : 1 ≤ s) :
    _spacing d p s = (List.range ((d - p - (d - p) % s / 2) / s + 1)).map
      fun i => (d - p) % s / 2 + s * i := by
  set D := d - p with hD
  set off := D % s / 2 with hoff
  have hoffD : off ≤ D := le_trans (Nat.div_le_self _ _) (Nat.mod_le _ _)
  unfold _spacing spacingZ pyrange
  have h1 : (d : Int) - p = (D : Int) := by omega
  have h2 : ((D : Int) % (s : Int)) / 2 = (off : Int) := by
    rw [hoff]; rfl
  have h3 : (D : Int) + 1 - (off : Int) + (s : Int) - 1 = ((D - off + s : Nat) : Int) := by
    omega
  have h4 : (((D - off + s : Nat) : Int) / (s : Int)) = (((D - off + s) / s : Nat) : Int) := rfl
  have h5 : (D - off + s) / s = (D - off) / s + 1 := Nat.add_div_right _ hs
  rw [h1, h2, h3, h4, h5, Int.toNat_natCast, List.map_map]
  refine List.map_congr_left fun i hi => ?_
  have : ((off + s * i : Nat) : Int) = (off : Int) + (s : Int) * (i : Int) := by push_cast; ring
  simp only [Function.comp_apply, ← this, Int.toNat_natCast]

/-- elements of the closed-form sequence stay at or below `dimension - psize`. -/
theorem spacing_mem_le (d p s : Nat) (hp : p ≤ d) (hs : 1 ≤ s) :
    ∀ a ∈ _spacing d p s, a ≤ d - p := by
  intro a ha
  rw [spacing_eq_map_range d p s hp hs] at ha
  simp only [List.mem_map, List.mem_range] at ha
  obtain ⟨i, hi, rfl⟩ := ha
  have hi' : i ≤ (d - p - (d - p) % s / 2) / s := by omega
  have h1 : s * i ≤ s * ((d - p - (d - p) % s / 2) / s) := Nat.mul_le_mul_left _ hi'
  have h2 : s * ((d - p - (d - p) % s / 2) / s) ≤ d - p - (d - p) % s / 2 := by
    rw [Nat.mul_comm]; exact Nat.div_mul_le_self _ _
  have hoffD : (d - p) % s / 2 ≤ d - p := le_trans (Nat.div_le_self _ _) (Nat.mod_le _ _)
  omega

end PatchPy

namespace PatchPy

/-- the spacing sequence is never empty when the patch fits. -/
theorem spacing_ne_nil (d p s : Nat) (hp : p ≤ d) (hs : 1 ≤ s) :
    _spacing d p s ≠ [] := by
  rw [spacing_eq_map_range d p s hp hs]
  simp

/-- first element of the spacing sequence. -/
theorem spacing_headI (d p s : Nat) (hp : p ≤ d) (hs : 1 ≤ s) :
    (_spacing d p s).headI = (d - p) % s / 2 := by
  rw [spacing_eq_map_range d p s hp hs, List.range_succ_eq_map]
  simp

/-- last element of the spacing sequence in closed form. -/
theorem spacing_getLastD (d p s : Nat) (hp : p ≤ d) (hs : 1 ≤ s) :
    (_spacing d p s).getLastD 0 =
      (d - p) % s / 2 + s * ((d - p - (d - p) % s / 2) / s) := by
  rw [spacing_eq_map_range d p s hp hs, List.range_succ, List.map_append]
  simp

/-- consecutive spacing elements differ by exactly the stride. -/
theorem spacing_chain' (d p s : Nat) (hp : p ≤ d) (hs : 1 ≤ s) :
    List.Chain' (fun a b => b = a + s) (_spacing d p s) := by
  rw [spacing_eq_map_range d p s hp hs, List.chain'_map]
  rw [List.chain'_range_succ]
  intro m hm
  have h1 : s * Nat.succ m = s * m + s := by
    rw [Nat.succ_eq_add_one]; ring
  omega

/-- the spacing sequence is strictly increasing. -/
theorem spacing_sorted (d p s : Nat) (hp : p ≤ d) (hs : 1 ≤ s) :
    List.Sorted (· < ·) (_spacing d p s) := by
  have h := spacing_chain' d p s hp hs
  have h' : List.Chain' (· < ·) (_spacing d p s) := by
    refine List.Chain'.imp ?_ h
    intro a b hab
    omega
  exact List.chain'_iff_pairwise.mp h'

/-- C2: for every `dimension ≥ psize ≥ 1` and `stride ≥ 1`,
`_spacing(dimension, psize, stride)` is a non-empty, strictly increasing
sequence of integers whose first element equals
`⌊((dimension − psize) mod stride) / 2⌋`, whose elements (in particular
the last) are at most `dimension − psize`, and in which every pair of
consecutive elements differs by exactly `stride`. -/
theorem C2_spacing_shape (d p s : Nat) (_hp1 : 1 ≤ p) (hp : p ≤ d) (hs : 1 ≤ s) :
    _spacing d p s ≠ [] ∧
    (_spacing d p s).headI = (d - p) % s / 2 ∧
    List.Sorted (· < ·) (_spacing d p s) ∧
    List.Chain' (fun a b => b = a + s) (_spacing d p s) ∧
    ∀ a ∈ _spacing d p s, a ≤ d - p :=
  ⟨spacing_ne_nil d p s hp hs, spacing_headI d p s hp hs,
   spacing_sorted d p s hp hs, spacing_chain' d p s hp hs,
   spacing_mem_le d p s hp hs⟩

/-- witness for C2 at `dimension = 5`, `psize = 3`, `stride = 2`. -/
theorem C2_spacing_shape_witness :
    _spacing 5 3 2 ≠ [] ∧ (_spacing 5 3 2).headI = (5 - 3) % 2 / 2 :=
  ⟨(C2_spacing_shape 5 3 2 (by decide) (by decide) (by decide)).1,
   (C2_spacing_shape 5 3 2 (by decide) (by decide) (by decide)).2.1⟩

/-- C3: symmetric centering of the leftover: with
`remainder = (dimension − psize) mod stride`, the first spacing element is
at most `⌈remainder / 2⌉` and the last one is within `⌈remainder / 2⌉` of
`dimension − psize`, so the unused space is split between the two ends of
the axis within one pixel. -/
theorem C3_spacing_centres_leftover (d p s : Nat) (_hp1 : 1 ≤ p) (hp : p ≤ d) (hs : 1 ≤ s) :
    (_spacing d p s).headI ≤ ((d - p) % s + 1) / 2 ∧
    d - p - (_spacing d p s).getLastD 0 ≤ ((d - p) % s + 1) / 2 := by
  have hrs : (d - p) % s < s := Nat.mod_lt _ (by omega)
  have hqr : s * ((d - p) / s) + (d - p) % s = d - p := Nat.div_add_mod _ s
  have hdiv : (d - p - (d - p) % s / 2) / s = (d - p) / s := by
    have h1 : d - p - (d - p) % s / 2 =
        ((d - p) % s - (d - p) % s / 2) + s * ((d - p) / s) := by omega
    rw [h1, Nat.add_mul_div_left _ _ (by omega : 0 < s),
      Nat.div_eq_of_lt (by omega : (d - p) % s - (d - p) % s / 2 < s)]
    omega
  constructor
  · rw [spacing_headI d p s hp hs]
    omega
  · rw [spacing_getLastD d p s hp hs, hdiv]
    omega

/-- witness for C3 at `dimension = 9`, `psize = 3`, `stride = 4`
(remainder 2, spacing `[1, 5]`, one pixel left at each end). -/
theorem C3_spacing_centres_leftover_witness :
    (_spacing 9 3 4).headI ≤ ((9 - 3) % 4 + 1) / 2 ∧
    9 - 3 - (_spacing 9 3 4).getLastD 0 ≤ ((9 - 3) % 4 + 1) / 2 :=
  C3_spacing_centres_leftover 9 3 4 (by decide) (by decide) (by decide)

end PatchPy

namespace PatchPy

/-- the spacing sequence is empty as soon as the patch is larger than the
dimension: the Python `range` then has a nonpositive stop and a
nonnegative start. -/
theorem spacing_nil_of_lt (d p s : Nat) (hd : d < p) (hs : 1 ≤ s) :
    _spacing d p s = [] := by
  unfold _spacing spacingZ pyrange
  have hs0 : (s : Int) ≠ 0 := by omega
  have hstart : 0 ≤ ((d : Int) - p) % s / 2 :=
    Int.ediv_nonneg (Int.emod_nonneg _ hs0) (by omega)
  have hnum : (d : Int) - p + 1 - ((d : Int) - p) % s / 2 + s - 1 ≤ s - 1 := by omega
  have hdiv : ((d : Int) - p + 1 - ((d : Int) - p) % s / 2 + s - 1) / s ≤ 0 := by
    calc ((d : Int) - p + 1 - ((d : Int) - p) % s / 2 + s - 1) / s
        ≤ ((s : Int) - 1) / s := Int.ediv_le_ediv (by omega) hnum
      _ = 0 := Int.ediv_eq_zero_of_lt (by omega) (by omega)
  rw [Int.toNat_of_nonpos hdiv]
  rfl

/-- C7 corrected: when the patch is larger than an image dimension the
code does NOT raise: `_spacing` returns the empty sequence, and
`grid_patches` on an image whose row count is below `psize` succeeds and
yields zero patches. -/
theorem C7_small_dimension_silently_empty (im : NDArray) (rows cols ch pwidth pstride : Nat)
    (hshape : im.shape = [rows, cols] ∨ im.shape = [rows, cols, ch])
    (hrows : rows < 2 * pwidth + 1) :
    _spacing rows (2 * pwidth + 1) (max 1 pstride) = [] ∧
    grid_patches im pwidth pstride none = .ok [] := by
  have hsp : _spacing rows (2 * pwidth + 1) (max 1 pstride) = [] :=
    spacing_nil_of_lt _ _ _ hrows (le_max_left _ _)
  refine ⟨hsp, ?_⟩
  rcases hshape with h | h <;>
    simp [grid_patches, _checkim, h, gridList, hsp]

/-- witness for the corrected C7 at a 2×2 rank-2 image with `pwidth = 1`. -/
theorem C7_small_dimension_silently_empty_witness :
    _spacing 2 (2 * 1 + 1) (max 1 1) = [] ∧
    grid_patches ⟨[2, 2], fun _ => 0⟩ 1 1 none = .ok [] :=
  C7_small_dimension_silently_empty ⟨[2, 2], fun _ => 0⟩ 2 2 0 1 1
    (Or.inl rfl) (by decide)

/-- counterexample to C7 as stated: a 2×2 image with `psize = 3 > 2 = rows`
makes `grid_patches` succeed with an empty yield (and `_spacing` return the
empty sequence) instead of raising a parameter error. -/
theorem C7_counterexample_no_error :
    grid_patches ⟨[2, 2], fun _ => 0⟩ 1 1 none = .ok [] ∧
    _spacing 2 3 1 = [] := by
  constructor
  · rfl
  · rfl

/-- C8: an array whose rank is neither 2 nor 3 makes `_checkim` (and with
it `grid_patches` and `point_patches`) fail with the shape error before
any patch is produced; a rank-2 array is accepted with one channel and a
rank-3 array with its own channel count. -/
theorem C8_checkim_rank (im : NDArray) (pwidth pstride : Nat)
    (co : Option (Int × Int)) (points : List (Nat × Nat)) :
    (im.shape.length ≠ 2 → im.shape.length ≠ 3 →
      _checkim im = .error "image must be a 2D or 3D array" ∧
      grid_patches im pwidth pstride co = .error "image must be a 2D or 3D array" ∧
      point_patches im points pwidth = .error "image must be a 2D or 3D array") ∧
    (∀ r c, im.shape = [r, c] → _checkim im = .ok (r, c, 1)) ∧
    (∀ r c ch, im.shape = [r, c, ch] → _checkim im = .ok (r, c, ch)) := by
  obtain ⟨shape, data⟩ := im
  refine ⟨?_, ?_, ?_⟩
  · intro h2 h3
    have he : _checkim ⟨shape, data⟩ = .error "image must be a 2D or 3D array" := by
      unfold _checkim
      match shape, h2, h3 with
      | [], _, _ => rfl
      | [a], _, _ => rfl
      | [a, b], h2, _ => simp at h2
      | [a, b, c], _, h3 => simp at h3
      | a :: b :: c :: e :: tl, _, _ => rfl
    exact ⟨he, by unfold grid_patches; rw [he], by unfold point_patches; rw [he]⟩
  · intro r c h
    simp only at h
    subst h
    rfl
  · intro r c ch h
    simp only at h
    subst h
    rfl

/-- witness for C8: a rank-1 array is rejected, a rank-2 array accepted. -/
theorem C8_checkim_rank_witness :
    _checkim ⟨[4], fun _ => 0⟩ = .error "image must be a 2D or 3D array" ∧
    _checkim ⟨[2, 3], fun _ => 0⟩ = .ok (2, 3, 1) :=
  ⟨((C8_checkim_rank ⟨[4], fun _ => 0⟩ 0 1 none []).1 (by decide) (by decide)).1,
   (C8_checkim_rank ⟨[2, 3], fun _ => 0⟩ 0 1 none []).2.1 2 3 rfl⟩

/-- C9: concrete scenario: on a 5×5 image with `pwidth = 1` (`psize = 3`)
and `pstride = 2` the spacing is `[0, 2]` on both axes and `grid_patches`
yields exactly the four patches `image[0:3,0:3]`, `image[0:3,2:5]`,
`image[2:5,0:3]`, `image[2:5,2:5]` with centres `(1,1)`, `(1,3)`, `(3,1)`,
`(3,3)`, in that row-major order. -/
theorem C9_scenario_5x5 :
    _spacing 5 3 2 = [0, 2] ∧
    ∀ f : List Nat → Int,
      grid_patches ⟨[5, 5], f⟩ 1 2 none =
        .ok [(subFlat ⟨[5, 5], f⟩ 5 5 1 0 3 0 3, 1, 1),
             (subFlat ⟨[5, 5], f⟩ 5 5 1 0 3 2 5, 1, 3),
             (subFlat ⟨[5, 5], f⟩ 5 5 1 2 5 0 3, 3, 1),
             (subFlat ⟨[5, 5], f⟩ 5 5 1 2 5 2 5, 3, 3)] := by
  exact ⟨by decide, fun f => rfl⟩

/-- concrete 3×3 single-channel image whose pixel `(i, j)` holds `3*i + j`. -/
def img33 : NDArray :=
  ⟨[3, 3], fun idx => match idx with | [i, j] => (3 * i + j : Nat) | _ => 0⟩

/-- C4 is violated by the code (code bug): the point `(2, 1)` in a 3×3
image with `pwidth = 1` lies outside `row ≤ rows − pwidth − 1 = 1`, yet
`point_patches` accepts it (the check only rejects `row > rows − pwidth`)
and silently yields a clipped patch of 6 values instead of the documented
`(2*pwidth+1)^2 * channels = 9`. -/
theorem C4_boundary_point_clipped :
    point_patches img33 [(2, 1)] 1 = .ok [[3, 4, 5, 6, 7, 8]] ∧
    (pointPatch img33 3 3 1 1 (2, 1)).length ≠ (2 * 1 + 1) ^ 2 * 1 := by
  constructor
  · rfl
  · decide

end PatchPy

namespace PatchPy

/-- length of a `flatMap` whose pieces all have the same length. -/
theorem flatMap_const_length {α β : Type} (l : List α) (g : α → List β) (k : Nat)
    (h : ∀ a ∈ l, (g a).length = k) : (l.flatMap g).length = l.length * k := by
  induction l with
  | nil => simp
  | cons a t ih =>
    have ht : (t.flatMap g).length = t.length * k :=
      ih fun x hx => h x (List.mem_cons_of_mem _ hx)
    have ha : (g a).length = k := h a (List.mem_cons_self a t)
    have hm : (t.length + 1) * k = t.length * k + k := by ring
    simp only [List.flatMap_cons, List.length_append, List.length_cons, ha, ht]
    omega

/-- length of an in-bounds flattened sub-array: rows times columns times
channels. -/
theorem subFlat_length (im : NDArray) (Ih Iw Ic ys ye xs xe : Nat)
    (hy : ye ≤ Ih) (hx : xe ≤ Iw) :
    (subFlat im Ih Iw Ic ys ye xs xe).length = (ye - ys) * ((xe - xs) * Ic) := by
  unfold subFlat
  have hrow : (sliceClip ys ye Ih).length = ye - ys := by
    simp [sliceClip, Nat.min_eq_left hy]
  have hcol : (sliceClip xs xe Iw).length = xe - xs := by
    simp [sliceClip, Nat.min_eq_left hx]
  rw [flatMap_const_length _ _ ((xe - xs) * Ic) ?_, hrow]
  intro i _
  rw [flatMap_const_length _ _ Ic ?_, hcol]
  intro j _
  simp

/-- C5: for every valid image and every list of strictly in-bounds points,
`point_patches` succeeds and yields exactly one patch per point, in input
order, the patch for `(r, c)` being
`image[r − pwidth : r + pwidth + 1, c − pwidth : c + pwidth + 1]`
flattened to length `(2*pwidth + 1)^2 * channels`. -/
theorem C5_point_patches_order (im : NDArray) (Ih Iw Ic pwidth : Nat)
    (points : List (Nat × Nat))
    (hshape : im.shape = [Ih, Iw] ∧ Ic = 1 ∨ im.shape = [Ih, Iw, Ic])
    (hb : ∀ q ∈ points, pwidth ≤ q.1 ∧ q.1 + pwidth + 1 ≤ Ih ∧
      pwidth ≤ q.2 ∧ q.2 + pwidth + 1 ≤ Iw) :
    point_patches im points pwidth = .ok (points.map (pointPatch im Ih Iw Ic pwidth)) ∧
    ∀ q ∈ points, (pointPatch im Ih Iw Ic pwidth q).length = (2 * pwidth + 1) ^ 2 * Ic := by
  have hcheck : _checkim im = .ok (Ih, Iw, Ic) := by
    rcases hshape with ⟨h, rfl⟩ | h <;> simp [_checkim, h]
  constructor
  · unfold point_patches
    rw [hcheck]
    dsimp only
    have h1 : (points.any fun p => pwidth > p.1) = false := by
      rw [List.any_eq_false]
      intro q hq
      simpa using (hb q hq).1
    have h2 : (points.any fun p => Ih < p.1 + pwidth) = false := by
      rw [List.any_eq_false]
      intro q hq
      have := (hb q hq).2.1
      simp only [decide_eq_true_eq]
      omega
    have h3 : (points.any fun p => pwidth > p.2) = false := by
      rw [List.any_eq_false]
      intro q hq
      simpa using (hb q hq).2.2.1
    have h4 : (points.any fun p => Iw < p.2 + pwidth) = false := by
      rw [List.any_eq_false]
      intro q hq
      have := (hb q hq).2.2.2
      simp only [decide_eq_true_eq]
      omega
    simp only [h1, h2, h3, h4, Bool.or_self, Bool.or_false, Bool.false_or]
    rfl
  · intro q hq
    obtain ⟨hb1, hb2, hb3, hb4⟩ := hb q hq
    unfold pointPatch
    rw [subFlat_length im Ih Iw Ic _ _ _ _ hb2 hb4]
    have hyl : q.1 + pwidth + 1 - (q.1 - pwidth) = 2 * pwidth + 1 := by omega
    have hxl : q.2 + pwidth + 1 - (q.2 - pwidth) = 2 * pwidth + 1 := by omega
    rw [hyl, hxl]
    ring

/-- witness for C5 on the concrete 3×3 image with the single point `(1, 1)`. -/
theorem C5_point_patches_order_witness :
    point_patches img33 [(1, 1)] 1 = .ok ([((1 : Nat), (1 : Nat))].map (pointPatch img33 3 3 1 1)) :=
  (C5_point_patches_order img33 3 3 1 1 [(1, 1)] (Or.inl ⟨rfl, rfl⟩)
    (by decide)).1

end PatchPy

namespace PatchPy

/-- length of the row-major product `l1 × l2`. -/
theorem flatMap_map_length {α β γ : Type} (l1 : List α) (l2 : List β) (f : α → β → γ) :
    (l1.flatMap fun a => l2.map (f a)).length = l1.length * l2.length :=
  flatMap_const_length _ _ _ (fun _ _ => by simp)

/-- element `i * |l2| + j` of the row-major product `l1 × l2` is `f l1[i] l2[j]`. -/
theorem flatMap_map_getElem {α β γ : Type} (l1 : List α) (l2 : List β) (f : α → β → γ)
    (i j : Nat) (hi : i < l1.length) (hj : j < l2.length) :
    (l1.flatMap fun a => l2.map (f a))[i * l2.length + j]? = some (f l1[i] l2[j]) := by
  induction l1 generalizing i with
  | nil => simp at hi
  | cons a t ih =>
    cases i with
    | zero =>
      rw [List.flatMap_cons,
        List.getElem?_append_left (by simpa using by omega : 0 * l2.length + j < (l2.map (f a)).length)]
      simp [List.getElem?_map, List.getElem?_eq_getElem hj]
    | succ i =>
      have hlen : (List.map (f a) l2).length = l2.length := by simp
      have h1 : (i + 1) * l2.length = i * l2.length + l2.length := by ring
      rw [List.flatMap_cons, List.getElem?_append_right (by rw [hlen]; omega), hlen]
      have h2 : (i + 1) * l2.length + j - l2.length = i * l2.length + j := by omega
      rw [h2]
      have hi' : i < t.length := by simpa using Nat.lt_of_succ_lt_succ (by simpa using hi)
      rw [ih i hi']
      simp

/-- C6: on a valid image with both dimensions at least `psize`,
`grid_patches` succeeds and yields exactly one triple per pair of spacing
offsets, in row-major order (triple number `i * |cols spacing| + j` is the
one for row offset `i` and column offset `j`), where the patch is the
flattened `psize × psize` block at those offsets (of length
`psize * psize * channels`) and the centre is the offset plus `pwidth`,
shifted by the optional `centreoffset`. -/
theorem C6_grid_patches_rowmajor (im : NDArray) (Ih Iw Ic pwidth pstride : Nat)
    (co : Option (Int × Int))
    (hshape : im.shape = [Ih, Iw] ∧ Ic = 1 ∨ im.shape = [Ih, Iw, Ic])
    (hr : 2 * pwidth + 1 ≤ Ih) (hc : 2 * pwidth + 1 ≤ Iw) :
    grid_patches im pwidth pstride co = .ok (gridList im Ih Iw Ic pwidth (max 1 pstride) co) ∧
    (gridList im Ih Iw Ic pwidth (max 1 pstride) co).length =
      (_spacing Ih (2 * pwidth + 1) (max 1 pstride)).length *
        (_spacing Iw (2 * pwidth + 1) (max 1 pstride)).length ∧
    (∀ y ∈ _spacing Ih (2 * pwidth + 1) (max 1 pstride),
      ∀ x ∈ _spacing Iw (2 * pwidth + 1) (max 1 pstride),
        (subFlat im Ih Iw Ic y (y + (2 * pwidth + 1)) x (x + (2 * pwidth + 1))).length =
          (2 * pwidth + 1) * (2 * pwidth + 1) * Ic) ∧
    ∀ i j (hi : i < (_spacing Ih (2 * pwidth + 1) (max 1 pstride)).length)
      (hj : j < (_spacing Iw (2 * pwidth + 1) (max 1 pstride)).length),
      (gridList im Ih Iw Ic pwidth (max 1 pstride) co)[i *
          (_spacing Iw (2 * pwidth + 1) (max 1 pstride)).length + j]? =
        some (subFlat im Ih Iw Ic
                ((_spacing Ih (2 * pwidth + 1) (max 1 pstride))[i])
                ((_spacing Ih (2 * pwidth + 1) (max 1 pstride))[i] + (2 * pwidth + 1))
                ((_spacing Iw (2 * pwidth + 1) (max 1 pstride))[j])
                ((_spacing Iw (2 * pwidth + 1) (max 1 pstride))[j] + (2 * pwidth + 1)),
              gridCentre ((_spacing Ih (2 * pwidth + 1) (max 1 pstride))[i])
                ((_spacing Iw (2 * pwidth + 1) (max 1 pstride))[j]) pwidth co) := by
  have hcheck : _checkim im = .ok (Ih, Iw, Ic) := by
    rcases hshape with ⟨h, rfl⟩ | h <;> simp [_checkim, h]
  refine ⟨?_, ?_, ?_, ?_⟩
  · unfold grid_patches
    rw [hcheck]
  · simp only [gridList]
    exact flatMap_map_length _ _ _
  · intro y hy x hx
    have hy' : y ≤ Ih - (2 * pwidth + 1) :=
      spacing_mem_le Ih (2 * pwidth + 1) (max 1 pstride) hr (le_max_left _ _) y hy
    have hx' : x ≤ Iw - (2 * pwidth + 1) :=
      spacing_mem_le Iw (2 * pwidth + 1) (max 1 pstride) hc (le_max_left _ _) x hx
    rw [subFlat_length im Ih Iw Ic _ _ _ _ (by omega) (by omega)]
    have h1 : y + (2 * pwidth + 1) - y = 2 * pwidth + 1 := by omega
    have h2 : x + (2 * pwidth + 1) - x = 2 * pwidth + 1 := by omega
    rw [h1, h2, Nat.mul_assoc]
  · intro i j hi hj
    simp only [gridList]
    exact flatMap_map_getElem _ _ _ i j hi hj

/-- witness for C6 on the concrete 3×3 image with `pwidth = 1`,
`pstride = 2` and no centre offset. -/
theorem C6_grid_patches_rowmajor_witness :
    (gridList img33 3 3 1 1 (max 1 2) none).length =
      (_spacing 3 (2 * 1 + 1) (max 1 2)).length * (_spacing 3 (2 * 1 + 1) (max 1 2)).length :=
  (C6_grid_patches_rowmajor img33 3 3 1 1 2 none (Or.inl ⟨rfl, rfl⟩)
    (by decide) (by decide)).2.1

end PatchPy

namespace PatchPy

/-- `np.array_split` always returns exactly `n` parts. -/
theorem arraySplit_length {α : Type} (l : List α) (n : Nat) :
    (arraySplit l n).length = n := by
  induction n generalizing l with
  | zero => rfl
  | succ m ih => simp [arraySplit, ih]

/-- every part produced by `np.array_split` is a contiguous run of the
input list. -/
theorem arraySplit_mem_drop_take {α : Type} (l : List α) (n : Nat) (c : List α)
    (hc : c ∈ arraySplit l n) : ∃ a b, c = (l.drop a).take b := by
  induction n generalizing l with
  | zero => simp [arraySplit] at hc
  | succ m ih =>
    simp only [arraySplit] at hc
    rcases List.mem_cons.mp hc with h | h
    · exact ⟨0, l.length / (m + 1) + if l.length % (m + 1) = 0 then 0 else 1, by
        simpa [List.drop_zero] using h⟩
    · obtain ⟨a, b, hab⟩ := ih _ h
      refine ⟨l.length / (m + 1) + (if l.length % (m + 1) = 0 then 0 else 1) + a, b, ?_⟩
      rw [hab, List.drop_drop]

/-- the head (with default) of a sorted nonempty list is at most its last
element (with default). -/
theorem sorted_headI_le_getLastD : ∀ l : List Nat, List.Sorted (· < ·) l →
    l.headI ≤ l.getLastD 0
  | [], _ => le_refl _
  | [_], _ => le_refl _
  | a :: b :: t, hs => by
    have hab : a < b := (List.sorted_cons.mp hs).1 b (List.mem_cons_self b t)
    have ht : List.Sorted (· < ·) (b :: t) := (List.sorted_cons.mp hs).2
    have h2 := sorted_headI_le_getLastD (b :: t) ht
    have h1 : (a :: b :: t).getLastD 0 = (b :: t).getLastD 0 := rfl
    simp only [List.headI] at h2 ⊢
    rw [h1]
    omega

/-- the default-valued last element of a nonempty list is a member. -/
theorem getLastD_mem : ∀ l : List Nat, l ≠ [] → l.getLastD 0 ∈ l
  | [], h => absurd rfl h
  | [a], _ => by simp
  | a :: b :: t, _ => by
    have h := getLastD_mem (b :: t) (by simp)
    have h1 : (a :: b :: t).getLastD 0 = (b :: t).getLastD 0 := rfl
    rw [h1]
    exact List.mem_cons_of_mem _ h

/-- the default-valued head of a nonempty list is a member. -/
theorem headI_mem (l : List Nat) (hl : l ≠ []) : l.headI ∈ l := by
  cases l with
  | nil => exact absurd rfl hl
  | cons a t => exact List.mem_cons_self a t

/-- C10: with `rows ≥ psize`, `cols ≥ psize` and `nwindows ≥ 1`, every
slice pair returned by `image_windows` lies inside the image
(`start < stop ≤ dimension`, starts being naturals are nonnegative), and
the number of returned windows is at most `round(sqrt(nwindows))^2`. -/
theorem C10_windows_bounds (rows cols nwindows pwidth pstride : Nat)
    (_hn : 1 ≤ nwindows) (hr : 2 * pwidth + 1 ≤ rows) (hc : 2 * pwidth + 1 ≤ cols) :
    (∀ w ∈ image_windows (rows, cols) nwindows pwidth pstride,
      w.1.1 < w.1.2 ∧ w.1.2 ≤ rows ∧ w.2.1 < w.2.2 ∧ w.2.2 ≤ cols) ∧
    (image_windows (rows, cols) nwindows pwidth pstride).length ≤
      intRoundSqrt nwindows ^ 2 := by
  constructor
  · intro w hw
    simp only [image_windows, List.mem_flatMap, List.mem_map] at hw
    obtain ⟨sy, hsy, sx, hsx, hw⟩ := hw
    obtain ⟨hsy_mem, hsy_ne⟩ := List.mem_filter.mp hsy
    obtain ⟨hsx_mem, hsx_ne⟩ := List.mem_filter.mp hsx
    have hsy_ne' : sy ≠ [] := by simpa using hsy_ne
    have hsx_ne' : sx ≠ [] := by simpa using hsx_ne
    have hsub : ∀ (dim : Nat) (c : List Nat), 2 * pwidth + 1 ≤ dim →
        c ∈ arraySplit (_spacing dim (2 * pwidth + 1) (max 1 pstride)) (intRoundSqrt nwindows) →
        c ≠ [] →
        c.headI ≤ c.getLastD 0 ∧ c.getLastD 0 ≤ dim - (2 * pwidth + 1) := by
      intro dim c hdim hmem hne
      obtain ⟨a, b, hab⟩ := arraySplit_mem_drop_take _ _ _ hmem
      have hsublist : c.Sublist (_spacing dim (2 * pwidth + 1) (max 1 pstride)) := by
        rw [hab]
        exact (List.take_sublist _ _).trans (List.drop_sublist _ _)
      have hsorted : List.Sorted (· < ·) c :=
        List.Pairwise.sublist hsublist
          (spacing_sorted dim (2 * pwidth + 1) (max 1 pstride) hdim (le_max_left _ _))
      have hlast_mem : c.getLastD 0 ∈ _spacing dim (2 * pwidth + 1) (max 1 pstride) :=
        hsublist.subset (getLastD_mem c hne)
      exact ⟨sorted_headI_le_getLastD c hsorted,
        spacing_mem_le dim (2 * pwidth + 1) (max 1 pstride) hdim (le_max_left _ _) _ hlast_mem⟩
    obtain ⟨hy1, hy2⟩ := hsub rows sy hr hsy_mem hsy_ne'
    obtain ⟨hx1, hx2⟩ := hsub cols sx hc hsx_mem hsx_ne'
    subst hw
    dsimp only
    exact ⟨by omega, by omega, by omega, by omega⟩
  · simp only [image_windows]
    rw [flatMap_map_length]
    have h1 := List.length_filter_le (fun (sy : List Nat) => !sy.isEmpty)
      (arraySplit (_spacing rows (2 * pwidth + 1) (max 1 pstride)) (intRoundSqrt nwindows))
    have h2 := List.length_filter_le (fun (sx : List Nat) => !sx.isEmpty)
      (arraySplit (_spacing cols (2 * pwidth + 1) (max 1 pstride)) (intRoundSqrt nwindows))
    rw [arraySplit_length] at h1 h2
    calc _ ≤ intRoundSqrt nwindows * intRoundSqrt nwindows := Nat.mul_le_mul h1 h2
      _ = intRoundSqrt nwindows ^ 2 := by ring

/-- witness for C10 on a 10×10 image split into 4 windows with unit
patches and stride. -/
theorem C10_windows_bounds_witness :
    (image_windows (10, 10) 4 0 1).length ≤ intRoundSqrt 4 ^ 2 :=
  (C10_windows_bounds 10 10 4 0 1 (by decide) (by decide) (by decide)).2

end PatchPy

namespace PatchPy

/-- a contiguous `drop`/`take` run of `(range N).map g` is again a mapped
range, shifted by the drop count. -/
theorem take_drop_map_range {α : Type} (g : Nat → α) (N a b : Nat) :
    List.take b (List.drop a ((List.range N).map g)) =
      (List.range (min b (N - a))).map fun i => g (a + i) := by
  apply List.ext_getElem
  · simp
  · intro i h1 h2
    simp [List.getElem_take, List.getElem_drop, List.getElem_map, List.getElem_range,
      Nat.add_comm]

/-- head of a nonempty mapped range. -/
theorem map_range_headI (f : Nat → Nat) (k : Nat) (hk : 1 ≤ k) :
    ((List.range k).map f).headI = f 0 := by
  obtain ⟨m, rfl⟩ : ∃ m, k = m + 1 := ⟨k - 1, by omega⟩
  rw [List.range_succ_eq_map]
  simp

/-- last element of a nonempty mapped range. -/
theorem map_range_getLastD (f : Nat → Nat) (k : Nat) (hk : 1 ≤ k) :
    ((List.range k).map f).getLastD 0 = f (k - 1) := by
  obtain ⟨m, rfl⟩ : ∃ m, k = m + 1 := ⟨k - 1, by omega⟩
  rw [List.range_succ, List.map_append]
  simp

/-- every nonempty `np.array_split` part of a spacing sequence is an
arithmetic run with the stride as step whose values all belong to the full
spacing sequence. -/
theorem spacing_chunk (dim p s n : Nat) (hp : p ≤ dim) (hs : 1 ≤ s) (c : List Nat)
    (hm : c ∈ arraySplit (_spacing dim p s) n) (hne : c ≠ []) :
    ∃ a0 k, 1 ≤ k ∧ c = (List.range k).map (fun i => a0 + s * i) ∧
      ∀ v ∈ c, v ∈ _spacing dim p s := by
  obtain ⟨a, b, hab⟩ := arraySplit_mem_drop_take _ _ _ hm
  have hys := spacing_eq_map_range dim p s hp hs
  rw [hys, take_drop_map_range] at hab
  refine ⟨(dim - p) % s / 2 + s * a, min b (((dim - p - (dim - p) % s / 2) / s + 1) - a),
    ?_, ?_, ?_⟩
  · rcases Nat.eq_zero_or_pos (min b (((dim - p - (dim - p) % s / 2) / s + 1) - a)) with h | h
    · rw [h] at hab
      simp at hab
      exact absurd hab hne
    · exact h
  · rw [hab]
    refine List.map_congr_left fun i _ => ?_
    ring
  · intro v hv
    rw [hab] at hv
    simp only [List.mem_map, List.mem_range] at hv
    obtain ⟨i, hi, rfl⟩ := hv
    rw [hys]
    simp only [List.mem_map, List.mem_range]
    exact ⟨a + i, by omega, rfl⟩

/-- spacing of a dimension that is an exact number of strides plus a
patch: offsets `0, s, …, s*(k-1)`. -/
theorem spacing_arith (psize s k : Nat) (hs : 1 ≤ s) (hk : 1 ≤ k) :
    _spacing (s * (k - 1) + psize) psize s = (List.range k).map fun i => s * i := by
  have hp : psize ≤ s * (k - 1) + psize := Nat.le_add_left _ _
  have h0 : s * (k - 1) + psize - psize = s * (k - 1) := by omega
  have h1 : s * (k - 1) % s = 0 := Nat.mul_mod_right s (k - 1)
  have h2 : s * (k - 1) / s = k - 1 := Nat.mul_div_cancel_left _ (by omega)
  rw [spacing_eq_map_range _ _ _ hp hs, h0, h1]
  simp only [Nat.zero_div, Nat.sub_zero, Nat.zero_add]
  rw [h2, (by omega : k - 1 + 1 = k)]

/-- dropping the empty parts does not change the concatenation. -/
theorem flatten_filter_ne_nil {α : Type} (L : List (List α)) :
    (L.filter fun c => !c.isEmpty).flatten = L.flatten := by
  induction L with
  | nil => rfl
  | cons a t ih =>
    by_cases ha : a.isEmpty
    · have ha' : a = [] := by simpa using ha
      simp [List.filter_cons, ha, ih, ha']
    · simp [List.filter_cons, ha, ih]

/-- unfolding equation of `arraySplit` on a positive part count. -/
theorem arraySplit_succ {α : Type} (l : List α) (n : Nat) :
    arraySplit l (n + 1) =
      l.take (l.length / (n + 1) + if l.length % (n + 1) = 0 then 0 else 1)
        :: arraySplit (l.drop (l.length / (n + 1) + if l.length % (n + 1) = 0 then 0 else 1)) n :=
  rfl

/-- `np.array_split` is a partition: concatenating the parts restores the
list (for at least one part). -/
theorem arraySplit_flatten {α : Type} (l : List α) (n : Nat) (hn : 1 ≤ n) :
    (arraySplit l n).flatten = l := by
  induction n generalizing l with
  | zero => omega
  | succ m ih =>
    cases m with
    | zero => simp [arraySplit]
    | succ k =>
      rw [arraySplit_succ, List.flatten_cons, ih _ (by omega), List.take_append_drop]

/-- `flatMap` over a concatenation of lists. -/
theorem flatten_flatMap {α β : Type} (L : List (List α)) (f : α → List β) :
    L.flatten.flatMap f = L.flatMap fun s => s.flatMap f := by
  induction L with
  | nil => rfl
  | cons a t ih => simp [ih]

/-- `map` over a concatenation of lists. -/
theorem flatten_map {α β : Type} (L : List (List α)) (f : α → β) :
    L.flatten.map f = L.flatMap fun s => s.map f := by
  induction L with
  | nil => rfl
  | cons a t ih => simp [ih]

/-- the two nestings of a double `flatMap` are permutations of each other. -/
theorem flatMap_comm_perm {α β γ : Type} (l1 : List α) (l2 : List β) (f : α → β → List γ) :
    (l1.flatMap fun a => l2.flatMap fun b => f a b).Perm
      (l2.flatMap fun b => l1.flatMap fun a => f a b) := by
  refine Multiset.coe_eq_coe.mp ?_
  simp only [← Multiset.coe_bind]
  exact Multiset.bind_bind _ _

/-- pointwise permutations lift through `flatMap`. -/
theorem flatMap_perm_congr {α β : Type} (l : List α) (f g : α → List β)
    (h : ∀ a ∈ l, (f a).Perm (g a)) : (l.flatMap f).Perm (l.flatMap g) := by
  refine Multiset.coe_eq_coe.mp ?_
  simp only [← Multiset.coe_bind]
  exact Multiset.bind_congr fun a ha =>
    Multiset.coe_eq_coe.mpr (h a (Multiset.mem_coe.mp ha))

/-- rounding the square root of a positive number is positive. -/
theorem intRoundSqrt_pos (n : Nat) (hn : 1 ≤ n) : 1 ≤ intRoundSqrt n := by
  have h := Nat.sqrt_pos.mpr (by omega : 0 < n)
  simp only [intRoundSqrt]
  split <;> omega

end PatchPy

namespace PatchPy

/-- closed form of an unclipped slice. -/
theorem sliceClip_eq (start stop bound : Nat) (h : stop ≤ bound) :
    sliceClip start stop bound = (List.range (stop - start)).map (· + start) := by
  rw [sliceClip, Nat.min_eq_left h]

/-- reading a pixel of an in-bounds window view is reading the original
image shifted by the window origin. -/
theorem pixel_subimage (im : NDArray) (rows cols ch r1 r2 c1 c2 i j c : Nat)
    (hsh : im.shape = [rows, cols] ∨ im.shape = [rows, cols, ch]) :
    pixel (subimage im (r1, r2) (c1, c2)) i j c = pixel im (i + r1) (j + c1) c := by
  rcases hsh with h | h <;> simp [subimage, pixel, h]

/-- a window centre offset by the window origin is the global centre. -/
theorem gridCentre_shift (y x pwidth ay ax : Nat) :
    gridCentre y x pwidth (some ((ay : Int), (ax : Int))) =
      gridCentre (ay + y) (ax + x) pwidth none := by
  simp only [gridCentre, Prod.mk.injEq]
  constructor <;> (push_cast; ring)

/-- flattening an in-bounds sub-block of an in-bounds window view equals
flattening the corresponding block of the original image. -/
theorem subFlat_subimage (im : NDArray) (rows cols ch : Nat)
    (hsh : im.shape = [rows, cols] ∨ im.shape = [rows, cols, ch])
    (r1 r2 c1 c2 ys ye xs xe : Nat)
    (hr12 : r1 ≤ r2) (hr2 : r2 ≤ rows) (hc12 : c1 ≤ c2) (hc2 : c2 ≤ cols)
    (hye : ye ≤ r2 - r1) (hxe : xe ≤ c2 - c1) :
    subFlat (subimage im (r1, r2) (c1, c2)) (r2 - r1) (c2 - c1) ch ys ye xs xe =
      subFlat im rows cols ch (ys + r1) (ye + r1) (xs + c1) (xe + c1) := by
  unfold subFlat
  rw [sliceClip_eq _ _ _ hye, sliceClip_eq _ _ _ hxe,
    sliceClip_eq _ _ _ (show ye + r1 ≤ rows by omega),
    sliceClip_eq _ _ _ (show xe + c1 ≤ cols by omega),
    (show ye + r1 - (ys + r1) = ye - ys by omega),
    (show xe + c1 - (xs + c1) = xe - xs by omega),
    List.flatMap_map, List.flatMap_map]
  refine List.flatMap_congr fun i _ => ?_
  rw [List.flatMap_map, List.flatMap_map]
  refine List.flatMap_congr fun j _ => ?_
  refine List.map_congr_left fun c _ => ?_
  rw [pixel_subimage im rows cols ch r1 r2 c1 c2 _ _ _ hsh,
    Nat.add_assoc i ys r1, Nat.add_assoc j xs c1]

end PatchPy

namespace PatchPy

/-- window-origin variant of `subFlat_subimage`. -/
theorem subFlat_subimage_origin (im : NDArray) (rows cols ch r1 H c1 W ys ye xs xe : Nat)
    (hsh : im.shape = [rows, cols] ∨ im.shape = [rows, cols, ch])
    (hH : r1 + H ≤ rows) (hW : c1 + W ≤ cols) (hye : ye ≤ H) (hxe : xe ≤ W) :
    subFlat (subimage im (r1, r1 + H) (c1, c1 + W)) H W ch ys ye xs xe =
      subFlat im rows cols ch (r1 + ys) (r1 + ye) (c1 + xs) (c1 + xe) := by
  have h := subFlat_subimage im rows cols ch hsh r1 (r1 + H) c1 (c1 + W) ys ye xs xe
    (by omega) (by omega) (by omega) (by omega) (by omega) (by omega)
  rwa [(show r1 + H - r1 = H from by omega), (show c1 + W - c1 = W from by omega),
    (show ys + r1 = r1 + ys from by omega), (show ye + r1 = r1 + ye from by omega),
    (show xs + c1 = c1 + xs from by omega), (show xe + c1 = c1 + xe from by omega)] at h

/-- central alignment lemma: extracting grid patches from the window built
on a pair of nonempty spacing chunks, passing the window origin as centre
offset, yields literally the global patches and centres for the offsets
of those chunks. -/
theorem window_grid_patches_eq (im : NDArray) (rows cols ch pwidth pstride n : Nat)
    (hshape : im.shape = [rows, cols] ∧ ch = 1 ∨ im.shape = [rows, cols, ch])
    (hr : 2 * pwidth + 1 ≤ rows) (hc : 2 * pwidth + 1 ≤ cols)
    (sy sx : List Nat)
    (hsy : sy ∈ arraySplit (_spacing rows (2 * pwidth + 1) (max 1 pstride)) n)
    (hsx : sx ∈ arraySplit (_spacing cols (2 * pwidth + 1) (max 1 pstride)) n)
    (hsy_ne : sy ≠ []) (hsx_ne : sx ≠ []) :
    grid_patches (subimage im (sy.headI, sy.getLastD 0 + (2 * pwidth + 1))
        (sx.headI, sx.getLastD 0 + (2 * pwidth + 1))) pwidth pstride
      (some ((sy.headI : Int), (sx.headI : Int))) =
      .ok (sy.flatMap fun y => sx.map fun x =>
        (subFlat im rows cols ch y (y + (2 * pwidth + 1)) x (x + (2 * pwidth + 1)),
         gridCentre y x pwidth none)) := by
  have hs : 1 ≤ max 1 pstride := le_max_left 1 pstride
  have hsh' : im.shape = [rows, cols] ∨ im.shape = [rows, cols, ch] := hshape.imp And.left id
  obtain ⟨ay, ky, hky, hsyEq, hsyMem⟩ :=
    spacing_chunk rows (2 * pwidth + 1) (max 1 pstride) n hr hs sy hsy hsy_ne
  obtain ⟨ax, kx, hkx, hsxEq, hsxMem⟩ :=
    spacing_chunk cols (2 * pwidth + 1) (max 1 pstride) n hc hs sx hsx hsx_ne
  have hheady : sy.headI = ay := by
    rw [hsyEq, map_range_headI _ _ hky]
    omega
  have hheadx : sx.headI = ax := by
    rw [hsxEq, map_range_headI _ _ hkx]
    omega
  have hlasty : sy.getLastD 0 = ay + max 1 pstride * (ky - 1) := by
    rw [hsyEq, map_range_getLastD _ _ hky]
  have hlastx : sx.getLastD 0 = ax + max 1 pstride * (kx - 1) := by
    rw [hsxEq, map_range_getLastD _ _ hkx]
  have hylast_le : ay + max 1 pstride * (ky - 1) ≤ rows - (2 * pwidth + 1) := by
    refine spacing_mem_le rows (2 * pwidth + 1) (max 1 pstride) hr hs _ (hsyMem _ ?_)
    rw [hsyEq]
    exact List.mem_map.mpr ⟨ky - 1, List.mem_range.mpr (by omega), rfl⟩
  have hxlast_le : ax + max 1 pstride * (kx - 1) ≤ cols - (2 * pwidth + 1) := by
    refine spacing_mem_le cols (2 * pwidth + 1) (max 1 pstride) hc hs _ (hsxMem _ ?_)
    rw [hsxEq]
    exact List.mem_map.mpr ⟨kx - 1, List.mem_range.mpr (by omega), rfl⟩
  rw [hheady, hheadx, hlasty, hlastx, hsyEq, hsxEq,
    Nat.add_assoc ay (max 1 pstride * (ky - 1)) (2 * pwidth + 1),
    Nat.add_assoc ax (max 1 pstride * (kx - 1)) (2 * pwidth + 1)]
  have hcheck : _checkim (subimage im (ay, ay + (max 1 pstride * (ky - 1) + (2 * pwidth + 1)))
      (ax, ax + (max 1 pstride * (kx - 1) + (2 * pwidth + 1)))) =
      .ok (max 1 pstride * (ky - 1) + (2 * pwidth + 1),
        max 1 pstride * (kx - 1) + (2 * pwidth + 1), ch) := by
    have hm1 : min (ay + (max 1 pstride * (ky - 1) + (2 * pwidth + 1))) rows =
        ay + (max 1 pstride * (ky - 1) + (2 * pwidth + 1)) := Nat.min_eq_left (by omega)
    have hm2 : min (ax + (max 1 pstride * (kx - 1) + (2 * pwidth + 1))) cols =
        ax + (max 1 pstride * (kx - 1) + (2 * pwidth + 1)) := Nat.min_eq_left (by omega)
    rcases hshape with ⟨him, hch⟩ | him <;>
      [subst hch; skip] <;>
      simp [subimage, him, _checkim, hm1, hm2]
  unfold grid_patches
  rw [hcheck]
  dsimp only
  simp only [Except.ok.injEq]
  simp only [gridList]
  rw [spacing_arith (2 * pwidth + 1) (max 1 pstride) ky hs hky,
    spacing_arith (2 * pwidth + 1) (max 1 pstride) kx hs hkx,
    List.flatMap_map, List.flatMap_map]
  refine List.flatMap_congr fun i hi => ?_
  have hi' : i < ky := List.mem_range.mp hi
  rw [List.map_map, List.map_map]
  refine List.map_congr_left fun j hj => ?_
  have hj' : j < kx := List.mem_range.mp hj
  have hyi : max 1 pstride * i ≤ max 1 pstride * (ky - 1) :=
    Nat.mul_le_mul_left _ (by omega)
  have hxj : max 1 pstride * j ≤ max 1 pstride * (kx - 1) :=
    Nat.mul_le_mul_left _ (by omega)
  simp only [Function.comp_apply, Prod.mk.injEq]
  constructor
  · have h := subFlat_subimage_origin im rows cols ch ay
      (max 1 pstride * (ky - 1) + (2 * pwidth + 1)) ax
      (max 1 pstride * (kx - 1) + (2 * pwidth + 1))
      (max 1 pstride * i) (max 1 pstride * i + (2 * pwidth + 1))
      (max 1 pstride * j) (max 1 pstride * j + (2 * pwidth + 1))
      hsh' (by omega) (by omega) (by omega) (by omega)
    rw [h]
    congr 1 <;> omega
  · exact gridCentre_shift (max 1 pstride * i) (max 1 pstride * j) pwidth ay ax

end PatchPy

namespace PatchPy

/-- C1: window partitioning is lossless and alignment-preserving.  On a
valid image whose dimensions fit a patch: (a) whole-image `grid_patches`
succeeds; (b) for every pair of nonempty chunks of the global spacing
sequences, the corresponding slice pair is one of the windows returned by
`image_windows`, and re-running grid extraction inside that window with
the same `pwidth`/`pstride`, adding the window origin as centre offset,
yields exactly the patches and centres the whole-image extraction
produces for the offsets of those chunks; (c) the concatenation of all
windows' extractions is a permutation of (the same multiset as) the
whole-image extraction. -/
theorem C1_window_partition_lossless (im : NDArray) (rows cols ch pwidth pstride nwindows : Nat)
    (hshape : im.shape = [rows, cols] ∧ ch = 1 ∨ im.shape = [rows, cols, ch])
    (hr : 2 * pwidth + 1 ≤ rows) (hc : 2 * pwidth + 1 ≤ cols) (hn : 1 ≤ nwindows) :
    grid_patches im pwidth pstride none =
      .ok (gridList im rows cols ch pwidth (max 1 pstride) none) ∧
    (∀ sy ∈ arraySplit (_spacing rows (2 * pwidth + 1) (max 1 pstride)) (intRoundSqrt nwindows),
      ∀ sx ∈ arraySplit (_spacing cols (2 * pwidth + 1) (max 1 pstride)) (intRoundSqrt nwindows),
        sy ≠ [] → sx ≠ [] →
        ((sy.headI, sy.getLastD 0 + (2 * pwidth + 1)),
          (sx.headI, sx.getLastD 0 + (2 * pwidth + 1))) ∈
            image_windows (rows, cols) nwindows pwidth pstride ∧
        grid_patches (subimage im (sy.headI, sy.getLastD 0 + (2 * pwidth + 1))
            (sx.headI, sx.getLastD 0 + (2 * pwidth + 1))) pwidth pstride
          (some ((sy.headI : Int), (sx.headI : Int))) =
          .ok (sy.flatMap fun y => sx.map fun x =>
            (subFlat im rows cols ch y (y + (2 * pwidth + 1)) x (x + (2 * pwidth + 1)),
             gridCentre y x pwidth none))) ∧
    ((image_windows (rows, cols) nwindows pwidth pstride).flatMap fun w =>
        (grid_patches (subimage im w.1 w.2) pwidth pstride
          (some ((w.1.1 : Int), (w.2.1 : Int)))).toOption.getD []).Perm
      (gridList im rows cols ch pwidth (max 1 pstride) none) := by
  have hcheck : _checkim im = .ok (rows, cols, ch) := by
    rcases hshape with ⟨h, rfl⟩ | h <;> simp [_checkim, h]
  have hn' : 1 ≤ intRoundSqrt nwindows := intRoundSqrt_pos nwindows hn
  refine ⟨?_, ?_, ?_⟩
  · unfold grid_patches
    rw [hcheck]
  · intro sy hsy sx hsx hsy_ne hsx_ne
    constructor
    · simp only [image_windows, List.mem_flatMap, List.mem_map]
      exact ⟨sy, List.mem_filter.mpr ⟨hsy, by simpa using hsy_ne⟩,
        sx, List.mem_filter.mpr ⟨hsx, by simpa using hsx_ne⟩, rfl⟩
    · exact window_grid_patches_eq im rows cols ch pwidth pstride (intRoundSqrt nwindows)
        hshape hr hc sy sx hsy hsx hsy_ne hsx_ne
  · have hwin : image_windows (rows, cols) nwindows pwidth pstride =
        ((arraySplit (_spacing rows (2 * pwidth + 1) (max 1 pstride))
            (intRoundSqrt nwindows)).filter fun c => !c.isEmpty).flatMap fun sy =>
          ((arraySplit (_spacing cols (2 * pwidth + 1) (max 1 pstride))
              (intRoundSqrt nwindows)).filter fun c => !c.isEmpty).map fun sx =>
            ((sy.headI, sy.getLastD 0 + (2 * pwidth + 1)),
              (sx.headI, sx.getLastD 0 + (2 * pwidth + 1))) := rfl
    rw [hwin, List.flatMap_assoc]
    simp only [List.flatMap_map]
    have hU : (((arraySplit (_spacing rows (2 * pwidth + 1) (max 1 pstride))
          (intRoundSqrt nwindows)).filter fun c => !c.isEmpty).flatMap fun sy =>
        ((arraySplit (_spacing cols (2 * pwidth + 1) (max 1 pstride))
            (intRoundSqrt nwindows)).filter fun c => !c.isEmpty).flatMap fun sx =>
          (grid_patches (subimage im
              ((sy.headI, sy.getLastD 0 + (2 * pwidth + 1)),
                (sx.headI, sx.getLastD 0 + (2 * pwidth + 1))).1
              ((sy.headI, sy.getLastD 0 + (2 * pwidth + 1)),
                (sx.headI, sx.getLastD 0 + (2 * pwidth + 1))).2) pwidth pstride
            (some ((((sy.headI, sy.getLastD 0 + (2 * pwidth + 1)),
                (sx.headI, sx.getLastD 0 + (2 * pwidth + 1))).1.1 : Int),
              (((sy.headI, sy.getLastD 0 + (2 * pwidth + 1)),
                (sx.headI, sx.getLastD 0 + (2 * pwidth + 1))).2.1 : Int)))).toOption.getD []) =
        ((arraySplit (_spacing rows (2 * pwidth + 1) (max 1 pstride))
            (intRoundSqrt nwindows)).filter fun c => !c.isEmpty).flatMap fun sy =>
          ((arraySplit (_spacing cols (2 * pwidth + 1) (max 1 pstride))
              (intRoundSqrt nwindows)).filter fun c => !c.isEmpty).flatMap fun sx =>
            sy.flatMap fun y => sx.map fun x =>
              (subFlat im rows cols ch y (y + (2 * pwidth + 1)) x (x + (2 * pwidth + 1)),
               gridCentre y x pwidth none) := by
      refine List.flatMap_congr fun sy hsy => ?_
      refine List.flatMap_congr fun sx hsx => ?_
      obtain ⟨hsy_mem, hsy_e⟩ := List.mem_filter.mp hsy
      obtain ⟨hsx_mem, hsx_e⟩ := List.mem_filter.mp hsx
      have hsy_ne : sy ≠ [] := by simpa using hsy_e
      have hsx_ne : sx ≠ [] := by simpa using hsx_e
      dsimp only
      rw [window_grid_patches_eq im rows cols ch pwidth pstride (intRoundSqrt nwindows)
        hshape hr hc sy sx hsy_mem hsx_mem hsy_ne hsx_ne]
      rfl
    rw [hU]
    have h1 : ∀ y : Nat, (((arraySplit (_spacing cols (2 * pwidth + 1) (max 1 pstride))
          (intRoundSqrt nwindows)).filter fun c => !c.isEmpty).flatMap fun sx =>
            sx.map fun x =>
              (subFlat im rows cols ch y (y + (2 * pwidth + 1)) x (x + (2 * pwidth + 1)),
               gridCentre y x pwidth none)) =
        (_spacing cols (2 * pwidth + 1) (max 1 pstride)).map fun x =>
          (subFlat im rows cols ch y (y + (2 * pwidth + 1)) x (x + (2 * pwidth + 1)),
           gridCentre y x pwidth none) := by
      intro y
      rw [← flatten_map, flatten_filter_ne_nil, arraySplit_flatten _ _ hn']
    have hL : (((arraySplit (_spacing rows (2 * pwidth + 1) (max 1 pstride))
            (intRoundSqrt nwindows)).filter fun c => !c.isEmpty).flatMap fun sy =>
          sy.flatMap fun y =>
            ((arraySplit (_spacing cols (2 * pwidth + 1) (max 1 pstride))
                (intRoundSqrt nwindows)).filter fun c => !c.isEmpty).flatMap fun sx =>
              sx.map fun x =>
                (subFlat im rows cols ch y (y + (2 * pwidth + 1)) x (x + (2 * pwidth + 1)),
                 gridCentre y x pwidth none)) =
        gridList im rows cols ch pwidth (max 1 pstride) none := by
      calc (((arraySplit (_spacing rows (2 * pwidth + 1) (max 1 pstride))
              (intRoundSqrt nwindows)).filter fun c => !c.isEmpty).flatMap fun sy =>
            sy.flatMap fun y =>
              ((arraySplit (_spacing cols (2 * pwidth + 1) (max 1 pstride))
                  (intRoundSqrt nwindows)).filter fun c => !c.isEmpty).flatMap fun sx =>
                sx.map fun x =>
                  (subFlat im rows cols ch y (y + (2 * pwidth + 1)) x (x + (2 * pwidth + 1)),
                   gridCentre y x pwidth none))
          = ((arraySplit (_spacing rows (2 * pwidth + 1) (max 1 pstride))
              (intRoundSqrt nwindows)).filter fun c => !c.isEmpty).flatMap fun sy =>
            sy.flatMap fun y =>
              (_spacing cols (2 * pwidth + 1) (max 1 pstride)).map fun x =>
                (subFlat im rows cols ch y (y + (2 * pwidth + 1)) x (x + (2 * pwidth + 1)),
                 gridCentre y x pwidth none) := by
            exact List.flatMap_congr fun sy _ => List.flatMap_congr fun y _ => h1 y
        _ = (((arraySplit (_spacing rows (2 * pwidth + 1) (max 1 pstride))
              (intRoundSqrt nwindows)).filter fun c => !c.isEmpty).flatten).flatMap fun y =>
              (_spacing cols (2 * pwidth + 1) (max 1 pstride)).map fun x =>
                (subFlat im rows cols ch y (y + (2 * pwidth + 1)) x (x + (2 * pwidth + 1)),
                 gridCentre y x pwidth none) := (flatten_flatMap _ _).symm
        _ = gridList im rows cols ch pwidth (max 1 pstride) none := by
            rw [flatten_filter_ne_nil, arraySplit_flatten _ _ hn']
            rfl
    rw [← hL]
    refine flatMap_perm_congr _ _ _ fun sy _ => ?_
    exact flatMap_comm_perm
      ((arraySplit (_spacing cols (2 * pwidth + 1) (max 1 pstride))
        (intRoundSqrt nwindows)).filter fun c => !c.isEmpty) sy
      fun sx y => sx.map fun x =>
        (subFlat im rows cols ch y (y + (2 * pwidth + 1)) x (x + (2 * pwidth + 1)),
         gridCentre y x pwidth none)

/-- witness for C1 on a 10×10 image split into 4 windows with 1×1 patches
and unit stride: the concatenation of the four windows' extractions is a
permutation of the whole-image extraction. -/
theorem C1_window_partition_lossless_witness :
    ((image_windows (10, 10) 4 0 1).flatMap fun w =>
        (grid_patches (subimage ⟨[10, 10], fun _ => 0⟩ w.1 w.2) 0 1
          (some ((w.1.1 : Int), (w.2.1 : Int)))).toOption.getD []).Perm
      (gridList ⟨[10, 10], fun _ => 0⟩ 10 10 1 0 (max 1 1) none) :=
  (C1_window_partition_lossless ⟨[10, 10], fun _ => 0⟩ 10 10 1 0 1 4
    (Or.inl ⟨rfl, rfl⟩) (by decide) (by decide) (by decide)).2.2

end PatchPy
